import Mathlib

/-!
Shallow embedding of the numerical core of the gradient-forest repository
(sampling in `src/core/src/sampling/RandomSampler.cpp`, local linear
prediction in `src/core/src/prediction/LocalLinearPredictionStrategy.cpp`
together with the multi-lambda revision of that strategy kept in
`src/core/third_party/Distributions/README.md`, and the binding entry
points in `src/unnamed/part_000`), with theorems checking the
natural-language specification against it.

Real numbers computed by the program are modelled by `ℚ`; the IEEE value
NaN, where a claim is about it, is modelled by `Option ℚ` with `none` for
NaN.  Machine `size_t` arithmetic is modelled by `ℕ` with explicit
wrap-around modulo `2 ^ 64` at the places where overflow or underflow can
occur.
-/

namespace GradientForest

/-- Modulus of `size_t` arithmetic on the target platform (64-bit). -/
def sizeTMod : ℕ := 2 ^ 64

/-- Wrapping `size_t` subtraction `a - b` (for `a b < 2 ^ 64`). -/
def sizeTSub (a b : ℕ) : ℕ := (sizeTMod + a - b) % sizeTMod

/-- Modelled: `std::mt19937_64` is an external library component.  The
development only uses that the engine is a deterministic stream of words
computed from the seed, so it is modelled as a fixed pure function of the
seed and of the index of the draw. -/
def mt19937Model (seed : ℕ) (t : ℕ) : ℕ :=
  (6364136223846793005 * (seed + t + 1) + 1442695040888963407) % sizeTMod

/-- Modelled: `std::uniform_real_distribution<double>(0.0, 1.0)` (external)
maps one engine draw to a value in `[0, 1)`; modelled with 53-bit
resolution, which gives `0 ≤ u < 1` by construction. -/
def uniformRealDraw (r : ℕ) : ℚ := (r % 2 ^ 53 : ℕ) / (2 ^ 53 : ℚ)

/-- Modelled: `std::discrete_distribution` (external), a deterministic
function of the weight vector and one engine draw; no claim uses its
distributional properties, only that the index is a function of these. -/
def discreteDraw (weights : List ℚ) (r : ℕ) : ℕ := r % weights.length

/-- Modelled: `std::shuffle` (external) rearranges the vector into a
permutation of itself driven by the engine, consuming one engine draw per
element; modelled in selection form: draw an index into the remaining
elements and move that element to the output.  `t` is the index of the
next engine draw. -/
def shuffleModel (σ : ℕ → ℕ) (t : ℕ) (l : List ℕ) : List ℕ :=
  match l with
  | [] => []
  | x :: xs =>
    let k := σ t % (x :: xs).length
    (x :: xs).getD k 0 :: shuffleModel σ (t + 1) ((x :: xs).eraseIdx k)
termination_by l.length
decreasing_by
  simp [List.length_eraseIdx, Nat.mod_lt]

/-- `SamplingOptions` (interface used by `RandomSampler`): optional per-row
draw weights (empty means uniform), the cluster map, and
`samples_per_cluster`.  The cluster map is an association list modelling
the `unordered_map`. -/
structure SamplingOptions where
  sample_weights : List ℚ
  cluster_map : List (ℕ × List ℕ)
  samples_per_cluster : ℕ

/-- Lookup in the cluster map; `operator[]` on a missing key yields an
empty vector. -/
def SamplingOptions.clusterRows (o : SamplingOptions) (cluster_id : ℕ) : List ℕ :=
  ((o.cluster_map.find? (fun p => p.1 == cluster_id)).map Prod.snd).getD []

/-- Clustering is enabled when the cluster map is non-empty. -/
def SamplingOptions.clustering_enabled (o : SamplingOptions) : Bool :=
  !o.cluster_map.isEmpty

def SamplingOptions.num_clusters (o : SamplingOptions) : ℕ :=
  o.cluster_map.length

/-- Subsample size used by `RandomSampler::subsample`:
`(uint) std::ceil(samples.size() * sample_fraction)`. -/
def subsampleSize (n : ℕ) (sample_fraction : ℚ) : ℕ :=
  (Int.ceil ((n : ℚ) * sample_fraction)).toNat

/-- `RandomSampler::subsample` (two-output overload, lines 68-85): shuffle
the pool, copy the first `subsampleSize` elements into `subsamples` and
the remainder into `oob_samples`.  `t` is the index of the next engine
draw. -/
def subsample (σ : ℕ → ℕ) (t : ℕ) (samples : List ℕ) (sample_fraction : ℚ) :
    List ℕ × List ℕ :=
  let shuffled := shuffleModel σ t samples
  let subsample_size := subsampleSize samples.length sample_fraction
  (shuffled.take subsample_size, shuffled.drop subsample_size)

/-- The length to which `RandomSampler::subsample` resizes `oob_samples`:
`samples.size() - subsample_size` in `size_t` arithmetic, which wraps
modulo `2 ^ 64` when `subsample_size` exceeds the pool size. -/
def subsampleOobResizeLen (n : ℕ) (sample_fraction : ℚ) : ℕ :=
  sizeTSub n (subsampleSize n sample_fraction)

/-- `RandomSampler::sample_from_clusters` (lines 87-105): for each selected
cluster id, look up its rows, set the fraction to
`samples_per_cluster / cluster_obs.size()` and append the subsample drawn
with that fraction.  The engine position is threaded through the
per-cluster shuffles. -/
def sample_from_clusters (σ : ℕ → ℕ) (options : SamplingOptions)
    (cluster_samples : List ℕ) : List ℕ :=
  (cluster_samples.foldl (fun (st : List ℕ × ℕ) cluster_id =>
    let cluster_obs := options.clusterRows cluster_id
    let fraction : ℚ := (options.samples_per_cluster : ℚ) / (cluster_obs.length : ℚ)
    (st.1 ++ (subsample σ st.2 cluster_obs fraction).1, st.2 + cluster_obs.length))
    ([], 0)).1

/-- `RandomSampler::shuffle_and_split` (lines 107-117): fill with
`0 .. n_all - 1`, shuffle, and resize down to `size` (all callers pass
`size ≤ n_all`, so the resize truncates). -/
def shuffle_and_split (σ : ℕ → ℕ) (t : ℕ) (n_all : ℕ) (size : ℕ) : List ℕ :=
  (shuffleModel σ t (List.range n_all)).take size

/-- Rejection loop of `RandomSampler::draw_weighted` (lines 188-207):
repeatedly draw from the discrete distribution until an unselected value
appears, `num_samples` times.  The C++ loop has no bound; the model
carries fuel counting engine draws and returns what has been accumulated
when the fuel runs out (the sampler never reaches that case in runs that
terminate).  Returns the accumulated vector and the next engine index. -/
def draw_weighted_go (σ : ℕ → ℕ) (weights : List ℚ) (num_samples : ℕ) :
    ℕ → ℕ → List ℕ → List ℕ × ℕ
  | 0, t, result => (result, t)
  | fuel + 1, t, result =>
    if result.length = num_samples then (result, t)
    else
      let d := discreteDraw weights (σ t)
      if d ∈ result then draw_weighted_go σ weights num_samples fuel (t + 1) result
      else draw_weighted_go σ weights num_samples fuel (t + 1) (result ++ [d])

/-- `RandomSampler::draw_weighted`, with fuel for the rejection loop. -/
def draw_weighted (σ : ℕ → ℕ) (t : ℕ) (num_samples : ℕ) (weights : List ℚ)
    (fuel : ℕ) : List ℕ × ℕ :=
  draw_weighted_go σ weights num_samples fuel t []

/-- `RandomSampler::sample` (lines 41-53): the in-bag count is
`(size_t) (num_samples * sample_fraction)` (truncation); with empty sample
weights it shuffles and splits, otherwise it draws weighted.  Returns the
samples and the next engine index. -/
def sample (σ : ℕ → ℕ) (t : ℕ) (options : SamplingOptions) (num_samples : ℕ)
    (sample_fraction : ℚ) : List ℕ × ℕ :=
  let num_samples_inbag := (Int.floor ((num_samples : ℚ) * sample_fraction)).toNat
  if options.sample_weights = [] then
    (shuffle_and_split σ t num_samples num_samples_inbag, t + num_samples)
  else
    draw_weighted σ t num_samples_inbag options.sample_weights (num_samples * num_samples + 1)

/-- `RandomSampler::sample_clusters` (lines 29-39): sample cluster ids when
clustering is enabled, row ids otherwise. -/
def sample_clusters (σ : ℕ → ℕ) (t : ℕ) (options : SamplingOptions)
    (n_rows : ℕ) (sample_fraction : ℚ) : List ℕ × ℕ :=
  if options.clustering_enabled then
    sample σ t options options.num_clusters sample_fraction
  else
    sample σ t options n_rows sample_fraction

/-- Ascending iteration over the skip `std::set` in `draw_simple` and
`draw_knuth`: every skip value not above the current value shifts it up by
one. -/
def skipAdjust (skip : List ℕ) (v : ℕ) : ℕ :=
  skip.foldl (fun acc s => if s ≤ acc then acc + 1 else acc) v

/-- Rejection loop of `RandomSampler::draw_simple` (lines 130-154): draw
uniformly on `[0, max - skip.size())`, shift past the skip values, retry
while the value is already selected (`temp[draw]` is exactly membership in
the result so far, all draws being below `max`).  The C++ loop has no
bound; the model carries fuel counting engine draws and reports `none`
when it runs out. -/
def draw_simple_go (σ : ℕ → ℕ) (max : ℕ) (skip : List ℕ) (num_samples : ℕ) :
    ℕ → ℕ → List ℕ → Option (List ℕ)
  | 0, _, result => if result.length = num_samples then some result else none
  | fuel + 1, t, result =>
    if result.length = num_samples then some result
    else
      let d := skipAdjust skip (σ t % (max - skip.length))
      if d ∈ result then draw_simple_go σ max skip num_samples fuel (t + 1) result
      else draw_simple_go σ max skip num_samples fuel (t + 1) (result ++ [d])

def draw_simple (σ : ℕ → ℕ) (max : ℕ) (skip : List ℕ) (num_samples : ℕ)
    (fuel : ℕ) : Option (List ℕ) :=
  draw_simple_go σ max skip num_samples fuel 0 []

/-- Selection-sampling loop of `RandomSampler::draw_knuth` (lines 156-186):
while `i < num_samples`, draw `u ∈ [0, 1)`; skip index `j` when
`(size_no_skip - j) * u ≥ num_samples - i`, otherwise select it (shifted
past the skip values).  Subtractions on `size_t` are modelled by truncated
`ℕ` subtraction, which agrees with the source whenever
`num_samples ≤ size_no_skip` (the loop then keeps `j ≤ size_no_skip`).
Fuel counts engine draws. -/
def draw_knuth_go (σ : ℕ → ℕ) (size_no_skip : ℕ) (skip : List ℕ)
    (num_samples : ℕ) : ℕ → ℕ → ℕ → ℕ → List ℕ → Option (List ℕ)
  | 0, _, i, _, result => if i < num_samples then none else some result
  | fuel + 1, t, i, j, result =>
    if i < num_samples then
      let u := uniformRealDraw (σ t)
      if ((num_samples - i : ℕ) : ℚ) ≤ ((size_no_skip - j : ℕ) : ℚ) * u then
        draw_knuth_go σ size_no_skip skip num_samples fuel (t + 1) i (j + 1) result
      else
        draw_knuth_go σ size_no_skip skip num_samples fuel (t + 1) (i + 1) (j + 1)
          (result ++ [skipAdjust skip j])
    else some result

def draw_knuth (σ : ℕ → ℕ) (max : ℕ) (skip : List ℕ) (num_samples : ℕ)
    (fuel : ℕ) : Option (List ℕ) :=
  draw_knuth_go σ (max - skip.length) skip num_samples fuel 0 0 0 []

/-- `RandomSampler::draw` (lines 119-128): rejection sampling when
`num_samples < max / 2` (integer division), selection sampling
otherwise. -/
def draw (σ : ℕ → ℕ) (max : ℕ) (skip : List ℕ) (num_samples : ℕ)
    (fuel : ℕ) : Option (List ℕ) :=
  if num_samples < max / 2 then draw_simple σ max skip num_samples fuel
  else draw_knuth σ max skip num_samples fuel

/-!
Local linear prediction.  The repository carries two revisions of
`LocalLinearPredictionStrategy`; the one embedded here is the
multi-lambda revision (the file appended to
`src/core/third_party/Distributions/README.md`), the one that has the
`use_unweighted_penalty` flag and the `linear_correction_variables`
subset the claims speak about.  `Data::get` is modelled as a total
function `ℕ → ℕ → ℚ`, the outcome column of `Observations` as `ℕ → ℚ`,
and the iteration order of `weights_by_sampleID` as the association list
`wlist` (one entry per stored, hence non-zero, weight).
-/

/-- Entry update of an Eigen matrix, `A(i0, j0) = x`. -/
def updateEntry {m n : ℕ} (A : Matrix (Fin m) (Fin n) ℚ) (i0 : Fin m)
    (j0 : Fin n) (x : ℚ) : Matrix (Fin m) (Fin n) ℚ :=
  fun i j => if i = i0 ∧ j = j0 then x else A i j

/-- Sample index of the `i`-th entry of the weight map iteration
(`indices[i]` in the source). -/
def llIndex (wlist : List (ℕ × ℚ)) (i : Fin wlist.length) : ℕ :=
  (wlist.get i).1

/-- Weight of the `i`-th entry of the weight map iteration
(`weights_vec(i)` in the source). -/
def llWeight (wlist : List (ℕ × ℚ)) (i : Fin wlist.length) : ℚ :=
  (wlist.get i).2

/-- Inner column loop of the design-matrix construction (README lines
79-83): for each linear correction variable `V[j]`, write
`X(i, j+1) = original_data(indices[i], V[j]) - test_data(sampleID, V[j])`. -/
def llFillRow (original_data test_data : ℕ → ℕ → ℚ) (sampleID : ℕ)
    (V : List ℕ) (idx : ℕ) {k : ℕ} (i : Fin k)
    (A : Matrix (Fin k) (Fin (V.length + 1)) ℚ) :
    Matrix (Fin k) (Fin (V.length + 1)) ℚ :=
  (List.finRange V.length).foldl
    (fun A j => updateEntry A i j.succ
      (original_data idx (V.get j) - test_data sampleID (V.get j))) A

/-- Design matrix `X` of the README `predict` (lines 76-86), built row by
row: the centered correction variables in columns `1 ..`, then
`X(i, 0) = 1`.  Eigen leaves the matrix uninitialized; every entry is
written by the loop, so the (irrelevant) initial contents are taken to be
zero. -/
def llX (original_data test_data : ℕ → ℕ → ℚ) (sampleID : ℕ)
    (wlist : List (ℕ × ℚ)) (V : List ℕ) :
    Matrix (Fin wlist.length) (Fin (V.length + 1)) ℚ :=
  (List.finRange wlist.length).foldl
    (fun A i => updateEntry
      (llFillRow original_data test_data sampleID V (llIndex wlist i) i A) i 0 1)
    0

/-- Response vector `Y(i) = observations.get(OUTCOME, indices[i])` (README
line 84; each entry is written exactly once, so the single-assignment form
is used directly). -/
def llY (outcome : ℕ → ℚ) (wlist : List (ℕ × ℚ)) : Fin wlist.length → ℚ :=
  fun i => outcome (llIndex wlist i)

/-- Pre-regularization matrix `M = X^T * diag(weights) * X` (README line
90). -/
def llMpre (original_data test_data : ℕ → ℕ → ℚ) (sampleID : ℕ)
    (wlist : List (ℕ × ℚ)) (V : List ℕ) :
    Matrix (Fin (V.length + 1)) (Fin (V.length + 1)) ℚ :=
  (llX original_data test_data sampleID wlist V).transpose *
    Matrix.diagonal (llWeight wlist) *
    llX original_data test_data sampleID wlist V

/-- Right-hand side `X^T * diag(weights) * Y` of the ridge solve (README
line 113). -/
def llXtWY (original_data test_data : ℕ → ℕ → ℚ) (outcome : ℕ → ℚ)
    (sampleID : ℕ) (wlist : List (ℕ × ℚ)) (V : List ℕ) :
    Fin (V.length + 1) → ℚ :=
  ((llX original_data test_data sampleID wlist V).transpose *
    Matrix.diagonal (llWeight wlist)).mulVec (llY outcome wlist)

/-- Ridge regularization loop (README lines 100-111).  With
`use_unweighted_penalty`, `normalization = M.trace() / (num_variables + 1)`
is computed once on the incoming matrix and `lambda * normalization` is
added to each off-intercept diagonal entry; otherwise each off-intercept
diagonal entry is scaled by `(1 + lambda)` in place. -/
def ridgeRegularize (num_variables : ℕ)
    (M : Matrix (Fin (num_variables + 1)) (Fin (num_variables + 1)) ℚ)
    (lambda : ℚ) (use_unweighted_penalty : Bool) :
    Matrix (Fin (num_variables + 1)) (Fin (num_variables + 1)) ℚ :=
  if use_unweighted_penalty then
    let normalization := Matrix.trace M / ((num_variables : ℚ) + 1)
    (List.finRange num_variables).foldl
      (fun A i => updateEntry A i.succ i.succ (A i.succ i.succ + lambda * normalization)) M
  else
    (List.finRange num_variables).foldl
      (fun A i => updateEntry A i.succ i.succ (A i.succ i.succ + lambda * A i.succ i.succ)) M

/-- Modelled: Eigen's `ldlt().solve` (external).  The claims use only that
the solution is a function of the pair `(M, b)` and its value on small
concrete inputs, so the solve is modelled exactly, by the adjugate, with
result `0` on singular `M` (where Eigen returns unspecified values). -/
def ldltSolve {m : ℕ} (M : Matrix (Fin m) (Fin m) ℚ) (b : Fin m → ℚ) :
    Fin m → ℚ :=
  if M.det = 0 then 0 else fun i => M.det⁻¹ * M.adjugate.mulVec b i

/-- The regularized matrix solved for one value of lambda in the README
`predict` loop (lines 96-115): a fresh copy of the stored
pre-regularization `M`, regularized with this lambda alone. -/
def llRegularizedM (original_data test_data : ℕ → ℕ → ℚ) (sampleID : ℕ)
    (wlist : List (ℕ × ℚ)) (V : List ℕ) (lambda : ℚ)
    (use_unweighted_penalty : Bool) :
    Matrix (Fin (V.length + 1)) (Fin (V.length + 1)) ℚ :=
  ridgeRegularize V.length (llMpre original_data test_data sampleID wlist V)
    lambda use_unweighted_penalty

/-- Prediction for one value of lambda: `preds(0)` of the ridge solve on
the freshly regularized matrix. -/
def llPredictOne (original_data test_data : ℕ → ℕ → ℚ) (outcome : ℕ → ℚ)
    (sampleID : ℕ) (wlist : List (ℕ × ℚ)) (V : List ℕ)
    (use_unweighted_penalty : Bool) (lambda : ℚ) : ℚ :=
  ldltSolve
    (llRegularizedM original_data test_data sampleID wlist V lambda use_unweighted_penalty)
    (llXtWY original_data test_data outcome sampleID wlist V) 0

/-- `LocalLinearPredictionStrategy::predict` of the multi-lambda revision
(README lines 56-118): the loop restores `M = M_stored` at the top of
every iteration, so the output vector carries, per lambda in order, the
prediction computed from a fresh copy of the shared pre-regularization
matrix. -/
def llPredict (original_data test_data : ℕ → ℕ → ℚ) (outcome : ℕ → ℚ)
    (sampleID : ℕ) (wlist : List (ℕ × ℚ)) (V : List ℕ)
    (lambdas : List ℚ) (use_unweighted_penalty : Bool) : List ℚ :=
  lambdas.map
    (llPredictOne original_data test_data outcome sampleID wlist V use_unweighted_penalty)

/-- `LocalLinearPredictionStrategy::prediction_length` of the multi-lambda
revision (README lines 40-42). -/
def prediction_length (lambdas : List ℚ) : ℕ := lambdas.length

/-!
Variance path.  The half-sampling accumulator loop divides by
`num_good_groups`, a quantity that is zero when no group is good; the
result of that IEEE division, and everything downstream of it, is
modelled in `Option ℚ` with `none` for NaN.  The division helpers below
model the IEEE operations exactly at every argument the embedded code can
produce: the numerator of each division whose denominator can vanish is
zero there (`0 / 0` is NaN), and `compute_variance` is invoked with
`ci_group_size > 1` (spec section 4.8), so the division by
`ci_group_size - 1` has a non-zero denominator.
-/

/-- Division of an exact accumulator by a possibly-zero count:
`0 / 0 = NaN`; the embedded code never reaches this with a zero
denominator and a non-zero numerator. -/
def qdiv0 (x d : ℚ) : Option ℚ := if d = 0 then none else some (x / d)

/-- NaN-propagating subtraction. -/
def osub (x y : Option ℚ) : Option ℚ := x.bind fun a => y.map fun b => a - b

/-- NaN-propagating multiplication. -/
def omul (x y : Option ℚ) : Option ℚ := x.bind fun a => y.map fun b => a * b

/-- NaN-propagating division by an exact denominator (zero denominators
with non-NaN non-zero numerators do not occur in the embedded code). -/
def odiv (x : Option ℚ) (d : ℚ) : Option ℚ :=
  x.bind fun a => if d = 0 then none else some (a / d)

/-- Modelled from the spec: `ObjectiveBayesDebiaser::debias` is not under
`src/` (only its call site is).  Section 9 of the spec requires a shrinkage
that equals `var_between - group_noise` when that difference is positive,
shrinks toward zero otherwise, never returns a negative value, and is
continuous; the fixed form `max (var_between - group_noise) 0` satisfies
all of these.  NaN inputs propagate. -/
def bayesDebias (var_between group_noise : Option ℚ) (num_good_groups : ℚ) :
    Option ℚ :=
  let _ := num_good_groups
  var_between.bind fun a => group_noise.map fun b => max (a - b) 0

/-- Position of sample `s` in the weight-map iteration
(`sample_index_map[s]`; the source leaves `(size_t) -1` for samples
without a stored weight, and reading the pseudo-residual at such a
position is out of bounds, so the theorems only evaluate inputs in which
every tree leaf sample has a stored weight). -/
def sampleIndexMap (wlist : List (ℕ × ℚ)) (s : ℕ) : ℕ :=
  (wlist.map Prod.fst).indexOf s

/-- Pseudo-residuals of `compute_variance` (README lines 180-192):
`(X zeta)_i * (Y_i - (X theta)_i)` with `theta` the ridge solution and
`zeta` the solution of `M zeta = e_0`, listed in weight-map order. -/
def llPseudoResiduals (original_data test_data : ℕ → ℕ → ℚ) (outcome : ℕ → ℚ)
    (sampleID : ℕ) (wlist : List (ℕ × ℚ)) (V : List ℕ) (lambda : ℚ)
    (use_unweighted_penalty : Bool) : List ℚ :=
  let X := llX original_data test_data sampleID wlist V
  let Y := llY outcome wlist
  let M := llRegularizedM original_data test_data sampleID wlist V lambda
    use_unweighted_penalty
  let theta := ldltSolve M (llXtWY original_data test_data outcome sampleID wlist V)
  let zeta := ldltSolve M (Pi.single 0 1)
  List.ofFn fun i => X.mulVec zeta i * (Y i - X.mulVec theta i)

/-- Good-group test of the accumulator loop (README lines 215-221): every
tree of the group has a non-empty leaf sample set. -/
def goodGroup (samples_by_tree : List (List ℕ)) (ci_group_size group : ℕ) : Bool :=
  (List.range ci_group_size).all fun j =>
    !(samples_by_tree.getD (group * ci_group_size + j) []).isEmpty

/-- Number of good groups counted by the loop. -/
def numGoodGroups (samples_by_tree : List (List ℕ)) (ci_group_size : ℕ) : ℕ :=
  (List.range (samples_by_tree.length / ci_group_size)).countP
    (goodGroup samples_by_tree ci_group_size)

/-- Accumulator loop of `compute_variance` (README lines 206-247),
returning `(num_good_groups, psi_squared, psi_grouped_squared,
avg_score before its division)`.  Bad groups are skipped whole; for good
groups every division has a non-zero denominator, so this part stays in
`ℚ`. -/
def cvAccumulate (pr : ℕ → ℚ) (samples_by_tree : List (List ℕ))
    (ci_group_size : ℕ) : ℕ × ℚ × ℚ × ℚ :=
  (List.range (samples_by_tree.length / ci_group_size)).foldl
    (fun st group =>
      if goodGroup samples_by_tree ci_group_size group then
        let treePsi : ℕ → ℚ := fun b =>
          ((samples_by_tree.getD b []).map pr).sum /
            ((samples_by_tree.getD b []).length : ℚ)
        let psis := (List.range ci_group_size).map fun j =>
          treePsi (group * ci_group_size + j)
        let group_psi := psis.sum / (ci_group_size : ℚ)
        (st.1 + 1, st.2.1 + (psis.map fun x => x * x).sum,
          st.2.2.1 + group_psi * group_psi, st.2.2.2 + group_psi)
      else st)
    (0, 0, 0, 0)

/-- `LocalLinearPredictionStrategy::compute_variance` of the multi-lambda
revision (README lines 120-266): pseudo-residuals from the ridge fit with
`lambdas[0]`, the half-sampling accumulator, then
`var_between = psi_grouped_squared / num_good_groups - avg_score ^ 2`,
`var_total = psi_squared / (num_good_groups * ci_group_size) - avg_score ^ 2`,
`group_noise = (var_total - var_between) / (ci_group_size - 1)`, and the
Bayes debiaser.  There is no guard on `num_good_groups`. -/
def compute_variance (original_data test_data : ℕ → ℕ → ℚ) (outcome : ℕ → ℚ)
    (sampleID : ℕ) (wlist : List (ℕ × ℚ)) (V : List ℕ) (lambdas : List ℚ)
    (use_unweighted_penalty : Bool) (samples_by_tree : List (List ℕ))
    (ci_group_size : ℕ) : Option ℚ :=
  let lambda := lambdas.getD 0 0
  let ps := llPseudoResiduals original_data test_data outcome sampleID wlist V
    lambda use_unweighted_penalty
  let pr : ℕ → ℚ := fun s => ps.getD (sampleIndexMap wlist s) 0
  let st := cvAccumulate pr samples_by_tree ci_group_size
  let m : ℚ := (st.1 : ℚ)
  let avg_score := qdiv0 st.2.2.2 m
  let var_between := osub (qdiv0 st.2.2.1 m) (omul avg_score avg_score)
  let var_total := osub (qdiv0 st.2.1 (m * (ci_group_size : ℚ)))
    (omul avg_score avg_score)
  let group_noise := odiv (osub var_total var_between) ((ci_group_size : ℚ) - 1)
  bayesDebias var_between group_noise m

/-- `LocalLinearPredictionStrategy::compute_debiased_error` (README lines
268-295): accumulate the squared per-tree leaf values over the non-empty
nodes, counting them; with at most one such tree return NaN, otherwise
`outcome ^ 2 - bias / (num_trees * (num_trees - 1))`.  The per-node leaf
values are `Option ℚ`, with `none` for an empty node. -/
def compute_debiased_error (outcome_val : ℚ) (leaf_values : List (Option ℚ)) :
    Option ℚ :=
  let mse := outcome_val * outcome_val
  let st := leaf_values.foldl
    (fun (st : ℚ × ℕ) lv =>
      match lv with
      | none => st
      | some v => (st.1 + v * v, st.2 + 1))
    (0, 0)
  if st.2 ≤ 1 then none
  else some (mse - st.1 / ((st.2 : ℚ) * ((st.2 : ℚ) - 1)))

/-!
Binding layer and forest orchestration.
-/

/-- Outcome column index handed to `ForestTrainers::regression_trainer` by
`regression_train` (`src/unnamed/part_000` line 28):
`outcome_index - 1` in `size_t` arithmetic. -/
def regression_train_outcome (outcome_index : ℕ) : ℕ :=
  sizeTSub outcome_index 1

/-- Modelled from the spec: the per-tree seed derivation of
`ForestTrainer` is not under `src/`.  Spec section 4.5: per-tree seeds are
derived deterministically from the forest seed and the tree index; any
fixed derivation realizes the claims, and one is chosen here. -/
def treeSeed (forest_seed tree_index : ℕ) : ℕ :=
  (forest_seed + 2654435761 * (tree_index + 1)) % sizeTMod

/-- Modelled from the spec: the bootstrap phase that `ForestTrainer` runs
for one tree (spec sections 4.4 step 1 and 5) is not under `src/`; it
constructs a `RandomSampler` seeded from `(forest_seed, tree_index)` and
calls the sampler operations of `src/core/src/sampling/RandomSampler.cpp`
embedded above: `sample_clusters`, then `sample_from_clusters` when
clustering is enabled. -/
def treeBootstrap (forest_seed : ℕ) (options : SamplingOptions) (n_rows : ℕ)
    (sample_fraction : ℚ) (tree_index : ℕ) : List ℕ :=
  let σ := mt19937Model (treeSeed forest_seed tree_index)
  let st := sample_clusters σ 0 options n_rows sample_fraction
  if options.clustering_enabled then sample_from_clusters σ options st.1
  else st.1

/-- Modelled from the spec: the assembly of per-tree results
(spec section 5) is not under `src/`.  Each completed tree's sample vector
is placed into its own slot of an index-addressed vector; `order` is the
sequence in which the parallel workers commit their trees, so any thread
count and any interleaving is one choice of `order`. -/
def runForestSchedule (forest_seed : ℕ) (options : SamplingOptions)
    (n_rows : ℕ) (sample_fraction : ℚ) (num_trees : ℕ) (order : List ℕ) :
    List (Option (List ℕ)) :=
  order.foldl
    (fun acc i =>
      acc.set i (some (treeBootstrap forest_seed options n_rows sample_fraction i)))
    (List.replicate num_trees none)

/-!
Theorems.
-/

theorem sizeTSub_of_le {a b : ℕ} (hba : b ≤ a) (ha : a < sizeTMod) :
    sizeTSub a b = a - b := by
  unfold sizeTSub
  have h : sizeTMod + a - b = sizeTMod + (a - b) := by omega
  rw [h, Nat.add_mod_left]
  exact Nat.mod_eq_of_lt (by omega)

/-- C9: `regression_train` takes the host-supplied outcome index to be
1-indexed and converts it to the 0-indexed internal convention by
subtracting one before constructing the regression trainer (exactly, for
host indices in `[1, 2^64)`). -/
theorem claim_C9_outcome_index (outcome_index : ℕ) (h1 : 1 ≤ outcome_index)
    (h2 : outcome_index < sizeTMod) :
    regression_train_outcome outcome_index = outcome_index - 1 ∧
    regression_train_outcome outcome_index + 1 = outcome_index := by
  have h := sizeTSub_of_le h1 h2
  unfold regression_train_outcome
  omega

/-- Witness for C9 at the concrete host index 3. -/
theorem claim_C9_witness :
    1 ≤ 3 ∧ 3 < sizeTMod ∧
      (regression_train_outcome 3 = 3 - 1 ∧ regression_train_outcome 3 + 1 = 3) := by
  refine ⟨by norm_num, by norm_num [sizeTMod], claim_C9_outcome_index 3 (by norm_num) (by norm_num [sizeTMod])⟩

theorem cde_foldl (l : List (Option ℚ)) (a : ℚ) (c : ℕ) :
    l.foldl
      (fun (st : ℚ × ℕ) lv =>
        match lv with
        | none => st
        | some v => (st.1 + v * v, st.2 + 1)) (a, c)
      = (a + ((l.filterMap id).map fun v => v * v).sum, c + (l.filterMap id).length) := by
  induction l generalizing a c with
  | nil => simp
  | cons hd tl ih =>
    cases hd with
    | none => simpa using ih a c
    | some v =>
      simp only [List.foldl_cons, ih, List.filterMap_cons, id_eq, List.map_cons,
        List.sum_cons, List.length_cons, Prod.mk.injEq]
      constructor <;> [ring; omega]

/-- C10: `compute_debiased_error` returns NaN exactly when at most one
tree has a non-empty leaf value; otherwise it returns the squared outcome
minus the sum of the squared per-tree leaf values divided by
`num_trees * (num_trees - 1)`, `num_trees` counting only trees with
non-empty leaf values. -/
theorem claim_C10_debiased_error (outcome_val : ℚ) (leaf_values : List (Option ℚ)) :
    (compute_debiased_error outcome_val leaf_values = none ↔
      (leaf_values.filterMap id).length ≤ 1) ∧
    (1 < (leaf_values.filterMap id).length →
      compute_debiased_error outcome_val leaf_values =
        some (outcome_val * outcome_val -
          (((leaf_values.filterMap id).map fun v => v * v).sum /
            (((leaf_values.filterMap id).length : ℚ) *
              (((leaf_values.filterMap id).length : ℚ) - 1))))) := by
  unfold compute_debiased_error
  rw [cde_foldl]
  simp only [zero_add]
  constructor
  · split <;> simp_all
  · intro h
    rw [if_neg (by omega)]

/-- Witness for C10 with two non-empty trees. -/
theorem claim_C10_witness :
    1 < ([some (1 : ℚ), none, some 2].filterMap id).length ∧
    compute_debiased_error 3 [some 1, none, some 2] =
      some (3 * 3 - (((([some (1 : ℚ), none, some 2].filterMap id).map fun v => v * v).sum) /
        ((([some (1 : ℚ), none, some 2].filterMap id).length : ℚ) *
          ((([some (1 : ℚ), none, some 2].filterMap id).length : ℚ) - 1)))) :=
  ⟨by simp, (claim_C10_debiased_error 3 [some 1, none, some 2]).2 (by simp)⟩

/-- C5: local linear `predict` with several lambdas returns one entry per
lambda, in order, and the `i`-th entry is the prediction computed by
applying `lambdas[i]` to a fresh copy of the shared pre-regularization
matrix (`llPredictOne`); it therefore depends on no other lambda and not
on their order.  `prediction_length` equals the number of lambdas. -/
theorem claim_C5_multi_lambda (original_data test_data : ℕ → ℕ → ℚ)
    (outcome : ℕ → ℚ) (sampleID : ℕ) (wlist : List (ℕ × ℚ)) (V : List ℕ)
    (lambdas : List ℚ) (use_unweighted_penalty : Bool) :
    (llPredict original_data test_data outcome sampleID wlist V lambdas
        use_unweighted_penalty).length = prediction_length lambdas ∧
    ∀ i, i < lambdas.length →
      (llPredict original_data test_data outcome sampleID wlist V lambdas
          use_unweighted_penalty).getD i 0 =
        llPredictOne original_data test_data outcome sampleID wlist V
          use_unweighted_penalty (lambdas.getD i 0) := by
  unfold llPredict prediction_length
  refine ⟨List.length_map _ _, fun i hi => ?_⟩
  rw [List.getD_eq_getElem _ _ (by simpa using hi), List.getElem_map,
    List.getD_eq_getElem _ _ hi]

/-- Witness for C5 with two lambdas, evaluated at index 1. -/
theorem claim_C5_witness :
    1 < [(0 : ℚ), 1 / 10].length ∧
    (llPredict (fun _ _ => 2) (fun _ _ => 0) (fun _ => 5) 0 [(0, 1)] [0]
        [(0 : ℚ), 1 / 10] true).getD 1 0 =
      llPredictOne (fun _ _ => 2) (fun _ _ => 0) (fun _ => 5) 0 [(0, 1)] [0]
        true ([(0 : ℚ), 1 / 10].getD 1 0) :=
  ⟨by norm_num,
    (claim_C5_multi_lambda (fun _ _ => 2) (fun _ _ => 0) (fun _ => 5) 0
      [(0, 1)] [0] [(0 : ℚ), 1 / 10] true).2 1 (by norm_num)⟩

theorem cons_eraseIdx_perm {l : List ℕ} {k : ℕ} (h : k < l.length) :
    List.Perm (l.getD k 0 :: l.eraseIdx k) l := by
  rw [List.getD_eq_getElem _ _ h, List.eraseIdx_eq_take_drop_succ]
  have h1 : List.Perm (l[k] :: (l.take k ++ l.drop (k + 1)))
      (l.take k ++ l[k] :: l.drop (k + 1)) := List.perm_middle.symm
  have h2 : l.take k ++ l[k] :: l.drop (k + 1) = l := by
    rw [List.getElem_cons_drop, List.take_append_drop]
  rw [h2] at h1
  exact h1

theorem shuffleModel_perm (σ : ℕ → ℕ) :
    ∀ (n t : ℕ) (l : List ℕ), l.length ≤ n → List.Perm (shuffleModel σ t l) l := by
  intro n
  induction n with
  | zero =>
    intro t l hl
    have hnil : l = [] := List.length_eq_zero.mp (Nat.le_zero.mp hl)
    subst hnil
    simp [shuffleModel]
  | succ n ih =>
    intro t l hl
    match l with
    | [] => simp [shuffleModel]
    | x :: xs =>
      rw [shuffleModel]
      have hk : σ t % (x :: xs).length < (x :: xs).length :=
        Nat.mod_lt _ (by simp)
      refine List.Perm.trans (List.Perm.cons _ (ih (t + 1) _ ?_)) (cons_eraseIdx_perm hk)
      have := List.length_eraseIdx_of_lt hk
      simp only [this]
      simp at hl ⊢
      omega

theorem subsampleSize_le {n : ℕ} {f : ℚ} (h1 : f ≤ 1) :
    subsampleSize n f ≤ n := by
  unfold subsampleSize
  have hle : (n : ℚ) * f ≤ (n : ℚ) := by
    calc (n : ℚ) * f ≤ (n : ℚ) * 1 :=
      mul_le_mul_of_nonneg_left h1 (by positivity)
    _ = (n : ℚ) := mul_one _
  have : Int.ceil ((n : ℚ) * f) ≤ (n : ℤ) := by
    rw [Int.ceil_le]
    exact_mod_cast hle
  omega

/-- C7: the two-output `subsample` takes a shuffled copy of the pool, the
in-set is its prefix of length `ceil(|pool| * fraction)`, the out-set is
the remainder of length `|pool| - ceil(|pool| * fraction)`, and together
the two outputs are a permutation of the pool. -/
theorem claim_C7_subsample_split (σ : ℕ → ℕ) (t : ℕ) (pool : List ℕ)
    (fraction : ℚ) (h0 : 0 ≤ fraction) (h1 : fraction ≤ 1) :
    (subsample σ t pool fraction).1.length = subsampleSize pool.length fraction ∧
    (subsample σ t pool fraction).2.length =
      pool.length - subsampleSize pool.length fraction ∧
    (subsample σ t pool fraction).1 ++ (subsample σ t pool fraction).2 =
      shuffleModel σ t pool ∧
    List.Perm ((subsample σ t pool fraction).1 ++ (subsample σ t pool fraction).2)
      pool := by
  have hperm := shuffleModel_perm σ pool.length t pool le_rfl
  have hlen := hperm.length_eq
  have hsz := subsampleSize_le (n := pool.length) h1
  unfold subsample
  refine ⟨?_, ?_, List.take_append_drop _ _, ?_⟩
  · simp only [List.length_take, hlen]
    omega
  · simp [List.length_drop, hlen]
  · rw [List.take_append_drop]
    exact hperm

/-- Witness for C7 on a concrete pool and fraction 1/2. -/
theorem claim_C7_witness :
    (0 : ℚ) ≤ 1 / 2 ∧ (1 : ℚ) / 2 ≤ 1 ∧
    ((subsample (fun _ => 0) 0 [5, 6, 7] (1 / 2)).1.length =
        subsampleSize 3 (1 / 2) ∧
      (subsample (fun _ => 0) 0 [5, 6, 7] (1 / 2)).2.length =
        3 - subsampleSize 3 (1 / 2) ∧
      (subsample (fun _ => 0) 0 [5, 6, 7] (1 / 2)).1 ++
          (subsample (fun _ => 0) 0 [5, 6, 7] (1 / 2)).2 =
        shuffleModel (fun _ => 0) 0 [5, 6, 7] ∧
      List.Perm ((subsample (fun _ => 0) 0 [5, 6, 7] (1 / 2)).1 ++
          (subsample (fun _ => 0) 0 [5, 6, 7] (1 / 2)).2) [5, 6, 7]) :=
  ⟨by norm_num, by norm_num,
    claim_C7_subsample_split (fun _ => 0) 0 [5, 6, 7] (1 / 2) (by norm_num) (by norm_num)⟩

theorem diag_foldl_untouched {v : ℕ} (g : ℚ → ℚ) :
    ∀ (l : List (Fin v)) (M : Matrix (Fin (v + 1)) (Fin (v + 1)) ℚ)
      (i j : Fin (v + 1)),
      (i ≠ j ∨ ∀ p ∈ l, i ≠ p.succ) →
      (l.foldl (fun A p => updateEntry A p.succ p.succ (g (A p.succ p.succ))) M) i j
        = M i j := by
  intro l
  induction l with
  | nil => intro M i j _; rfl
  | cons a l ih =>
    intro M i j hcond
    have hcond2 : i ≠ j ∨ ∀ p ∈ l, i ≠ p.succ := by
      rcases hcond with h | h
      · exact Or.inl h
      · exact Or.inr fun p hp => h p (List.mem_cons_of_mem _ hp)
    have hne : ¬(i = a.succ ∧ j = a.succ) := by
      rintro ⟨rfl, rfl⟩
      rcases hcond with h | h
      · exact h rfl
      · exact h a (List.mem_cons_self _ _) rfl
    rw [List.foldl_cons, ih _ i j hcond2, updateEntry, if_neg hne]

theorem diag_foldl_touched {v : ℕ} (g : ℚ → ℚ) :
    ∀ (l : List (Fin v)) (M : Matrix (Fin (v + 1)) (Fin (v + 1)) ℚ),
      l.Nodup → ∀ p ∈ l,
      (l.foldl (fun A p => updateEntry A p.succ p.succ (g (A p.succ p.succ))) M)
          p.succ p.succ
        = g (M p.succ p.succ) := by
  intro l
  induction l with
  | nil => intro M _ p hp; cases hp
  | cons a l ih =>
    intro M hnd p hp
    have hal : a ∉ l := (List.nodup_cons.mp hnd).1
    have hl : l.Nodup := (List.nodup_cons.mp hnd).2
    rw [List.foldl_cons]
    rcases List.mem_cons.mp hp with rfl | hpl
    · rw [diag_foldl_untouched g l _ p.succ p.succ
        (Or.inr fun q hq heq => hal ((Fin.succ_injective _ heq) ▸ hq)),
        updateEntry, if_pos ⟨rfl, rfl⟩]
    · have hne : ¬(p.succ = a.succ ∧ p.succ = a.succ) := by
        rintro ⟨heq, -⟩
        exact hal ((Fin.succ_injective _ heq) ▸ hpl)
      rw [ih _ hl p hpl, updateEntry, if_neg hne]

/-- C1: in local linear prediction with `use_unweighted_penalty = true`,
for every query (any data, weight list, correction variables) and every
lambda, the regularized matrix solved in the lambda loop carries
`lambda * trace(M) / (|V| + 1)` added to each off-intercept diagonal
entry of the pre-regularization `M = X^T W X`, and every other entry of
`M` unchanged. -/
theorem claim_C1_unweighted_ridge_penalty (original_data test_data : ℕ → ℕ → ℚ)
    (sampleID : ℕ) (wlist : List (ℕ × ℚ)) (V : List ℕ) (lambda : ℚ)
    (j : Fin (V.length + 1)) (hj : j ≠ 0) :
    llRegularizedM original_data test_data sampleID wlist V lambda true j j =
      llMpre original_data test_data sampleID wlist V j j +
        lambda * (Matrix.trace (llMpre original_data test_data sampleID wlist V) /
          ((V.length : ℚ) + 1)) ∧
    ∀ i k : Fin (V.length + 1), i ≠ k ∨ i = 0 →
      llRegularizedM original_data test_data sampleID wlist V lambda true i k =
        llMpre original_data test_data sampleID wlist V i k := by
  constructor
  · obtain ⟨p, hp⟩ := Fin.exists_succ_eq_of_ne_zero hj
    rw [← hp]
    exact diag_foldl_touched
      (fun x => x + lambda * (Matrix.trace (llMpre original_data test_data sampleID wlist V) /
        ((V.length : ℚ) + 1)))
      (List.finRange V.length) _ (List.nodup_finRange _) p (List.mem_finRange p)
  · intro i k hik
    have hcond : i ≠ k ∨ ∀ p ∈ List.finRange V.length, i ≠ p.succ := by
      rcases hik with h | h
      · exact Or.inl h
      · exact Or.inr fun p _ hip => Fin.succ_ne_zero p (by rw [← hip, h])
    exact diag_foldl_untouched
      (fun x => x + lambda * (Matrix.trace (llMpre original_data test_data sampleID wlist V) /
        ((V.length : ℚ) + 1)))
      (List.finRange V.length) _ i k hcond

/-- Witness for C1 at a one-sample query with one correction variable and
lambda 1. -/
theorem claim_C1_witness :
    ((1 : Fin 2) ≠ 0) ∧
    (llRegularizedM (fun _ _ => 2) (fun _ _ => 0) 0 [(0, 1)] [0] 1 true 1 1 =
      llMpre (fun _ _ => 2) (fun _ _ => 0) 0 [(0, 1)] [0] 1 1 +
        1 * (Matrix.trace (llMpre (fun _ _ => 2) (fun _ _ => 0) 0 [(0, 1)] [0]) /
          (([(0 : ℕ)].length : ℚ) + 1)) ∧
      ∀ i k : Fin 2, i ≠ k ∨ i = 0 →
        llRegularizedM (fun _ _ => 2) (fun _ _ => 0) 0 [(0, 1)] [0] 1 true i k =
          llMpre (fun _ _ => 2) (fun _ _ => 0) 0 [(0, 1)] [0] i k) :=
  ⟨by decide,
    claim_C1_unweighted_ridge_penalty (fun _ _ => 2) (fun _ _ => 0) 0 [(0, 1)] [0] 1 1
      (by decide)⟩

theorem fill_foldl_untouched {k v : ℕ} (i0 : Fin k) (w : Fin v → ℚ) :
    ∀ (l : List (Fin v)) (A : Matrix (Fin k) (Fin (v + 1)) ℚ)
      (i : Fin k) (j : Fin (v + 1)),
      (i ≠ i0 ∨ ∀ p ∈ l, j ≠ p.succ) →
      (l.foldl (fun A p => updateEntry A i0 p.succ (w p)) A) i j = A i j := by
  intro l
  induction l with
  | nil => intro A i j _; rfl
  | cons a l ih =>
    intro A i j hcond
    have hcond2 : i ≠ i0 ∨ ∀ p ∈ l, j ≠ p.succ := by
      rcases hcond with h | h
      · exact Or.inl h
      · exact Or.inr fun p hp => h p (List.mem_cons_of_mem _ hp)
    have hne : ¬(i = i0 ∧ j = a.succ) := by
      rintro ⟨rfl, rfl⟩
      rcases hcond with h | h
      · exact h rfl
      · exact h a (List.mem_cons_self _ _) rfl
    rw [List.foldl_cons, ih _ i j hcond2, updateEntry, if_neg hne]

theorem fill_foldl_touched {k v : ℕ} (i0 : Fin k) (w : Fin v → ℚ) :
    ∀ (l : List (Fin v)) (A : Matrix (Fin k) (Fin (v + 1)) ℚ),
      l.Nodup → ∀ p ∈ l,
      (l.foldl (fun A p => updateEntry A i0 p.succ (w p)) A) i0 p.succ = w p := by
  intro l
  induction l with
  | nil => intro A _ p hp; cases hp
  | cons a l ih =>
    intro A hnd p hp
    have hal : a ∉ l := (List.nodup_cons.mp hnd).1
    have hl : l.Nodup := (List.nodup_cons.mp hnd).2
    rw [List.foldl_cons]
    rcases List.mem_cons.mp hp with rfl | hpl
    · rw [fill_foldl_untouched i0 w l _ i0 p.succ
        (Or.inr fun q hq heq => hal ((Fin.succ_injective _ heq) ▸ hq)),
        updateEntry, if_pos ⟨rfl, rfl⟩]
    · exact ih _ hl p hpl

theorem llX_row_foldl_untouched (original_data test_data : ℕ → ℕ → ℚ)
    (sampleID : ℕ) (wlist : List (ℕ × ℚ)) (V : List ℕ) :
    ∀ (l : List (Fin wlist.length))
      (A : Matrix (Fin wlist.length) (Fin (V.length + 1)) ℚ)
      (i : Fin wlist.length) (j : Fin (V.length + 1)), i ∉ l →
      (l.foldl (fun A r => updateEntry
          (llFillRow original_data test_data sampleID V (llIndex wlist r) r A) r 0 1)
        A) i j = A i j := by
  intro l
  induction l with
  | nil => intro A i j _; rfl
  | cons a l ih =>
    intro A i j hil
    have hia : i ≠ a := fun h => hil (h ▸ List.mem_cons_self _ _)
    have h1 : updateEntry
        (llFillRow original_data test_data sampleID V (llIndex wlist a) a A) a 0 1 i j =
        llFillRow original_data test_data sampleID V (llIndex wlist a) a A i j := by
      rw [updateEntry, if_neg (fun h => hia h.1)]
    rw [List.foldl_cons, ih _ i j (fun h => hil (List.mem_cons_of_mem _ h)), h1]
    exact fill_foldl_untouched a
      (fun p => original_data (llIndex wlist a) (V.get p) - test_data sampleID (V.get p))
      (List.finRange V.length) A i j (Or.inl hia)

theorem llX_row_foldl_touched (original_data test_data : ℕ → ℕ → ℚ)
    (sampleID : ℕ) (wlist : List (ℕ × ℚ)) (V : List ℕ) :
    ∀ (l : List (Fin wlist.length))
      (A : Matrix (Fin wlist.length) (Fin (V.length + 1)) ℚ),
      l.Nodup → ∀ i ∈ l,
      (l.foldl (fun A r => updateEntry
          (llFillRow original_data test_data sampleID V (llIndex wlist r) r A) r 0 1)
        A) i 0 = 1 ∧
      ∀ p : Fin V.length,
        (l.foldl (fun A r => updateEntry
            (llFillRow original_data test_data sampleID V (llIndex wlist r) r A) r 0 1)
          A) i p.succ =
          original_data (llIndex wlist i) (V.get p) - test_data sampleID (V.get p) := by
  intro l
  induction l with
  | nil => intro A _ i hi; cases hi
  | cons a l ih =>
    intro A hnd i hi
    have hal : a ∉ l := (List.nodup_cons.mp hnd).1
    have hl : l.Nodup := (List.nodup_cons.mp hnd).2
    rw [List.foldl_cons]
    rcases List.mem_cons.mp hi with rfl | hil
    · constructor
      · rw [llX_row_foldl_untouched original_data test_data sampleID wlist V l _ i 0 hal,
          updateEntry, if_pos ⟨rfl, rfl⟩]
      · intro p
        have h2 : updateEntry
            (llFillRow original_data test_data sampleID V (llIndex wlist i) i A) i 0 1
              i p.succ =
            llFillRow original_data test_data sampleID V (llIndex wlist i) i A i p.succ := by
          rw [updateEntry, if_neg (fun h => Fin.succ_ne_zero p h.2)]
        rw [llX_row_foldl_untouched original_data test_data sampleID wlist V l _ i p.succ hal,
          h2]
        exact fill_foldl_touched i
          (fun q => original_data (llIndex wlist i) (V.get q) - test_data sampleID (V.get q))
          (List.finRange V.length) A (List.nodup_finRange _) p (List.mem_finRange p)
    · exact ih _ hl i hil

/-- C4: for every query, the design matrix built by local linear `predict`
has one row per entry of the weight map (its row type is
`Fin wlist.length`, `wlist` carrying exactly the stored, non-zero,
weights), with intercept column `X[i,0] = 1`, centered correction
variables `X[i,j+1] = data[indices[i], V[j]] - q[V[j]]`, and response
`Y[i]` the outcome of the `i`-th non-zero-weight sample. -/
theorem claim_C4_design_matrix_entries (original_data test_data : ℕ → ℕ → ℚ)
    (outcome : ℕ → ℚ) (sampleID : ℕ) (wlist : List (ℕ × ℚ)) (V : List ℕ)
    (i : Fin wlist.length) (j : Fin V.length) :
    llX original_data test_data sampleID wlist V i 0 = 1 ∧
    llX original_data test_data sampleID wlist V i j.succ =
      original_data (llIndex wlist i) (V.get j) - test_data sampleID (V.get j) ∧
    llY outcome wlist i = outcome (llIndex wlist i) := by
  have h := llX_row_foldl_touched original_data test_data sampleID wlist V
    (List.finRange wlist.length) 0 (List.nodup_finRange _) i (List.mem_finRange i)
  exact ⟨h.1, h.2 j, rfl⟩

/-- C2 (code bug): `sample_from_clusters` on a cluster smaller than
`samples_per_cluster`.  With a 2-row cluster and `samples_per_cluster = 3`
the per-cluster fraction is `3/2`, so `subsample` computes
`subsample_size = ceil(2 * (3/2)) = 3`, larger than the cluster; the
source then resizes `oob_samples` to `2 - 3` in `size_t` arithmetic,
namely `2^64 - 1`, and copies 3 elements out of a 2-element shuffled
buffer, instead of returning all rows of the small cluster as the spec
prescribes. -/
theorem claim_C2_small_cluster_failing_eval :
    (SamplingOptions.clusterRows ⟨[], [(7, [0, 1])], 3⟩ 7).length = 2 ∧
    ((3 : ℚ) / ((SamplingOptions.clusterRows ⟨[], [(7, [0, 1])], 3⟩ 7).length : ℚ)
      = 3 / 2) ∧
    subsampleSize 2 (3 / 2) = 3 ∧
    subsampleOobResizeLen 2 (3 / 2) = 2 ^ 64 - 1 := by
  refine ⟨rfl, by norm_num [SamplingOptions.clusterRows], ?_, ?_⟩
  · norm_num [subsampleSize]
    decide
  · norm_num [subsampleOobResizeLen, subsampleSize, sizeTSub, sizeTMod]
    decide

theorem set_foldl_getElem (f : ℕ → Option (List ℕ)) (order : List ℕ) :
    ∀ (acc : List (Option (List ℕ))) (i : ℕ),
      (order.foldl (fun acc k => acc.set k (f k)) acc)[i]? =
        if i ∈ order ∧ i < acc.length then some (f i) else acc[i]? := by
  induction order with
  | nil => intro acc i; simp
  | cons a order ih =>
    intro acc i
    rw [List.foldl_cons, ih]
    by_cases hmem : i ∈ order ∧ i < acc.length
    · rw [if_pos (by simpa [List.length_set] using hmem),
        if_pos ⟨List.mem_cons_of_mem _ hmem.1, hmem.2⟩]
    · rw [if_neg (by simpa [List.length_set] using hmem)]
      by_cases hia : i = a ∧ i < acc.length
      · obtain ⟨rfl, hlt⟩ := hia
        rw [if_pos ⟨List.mem_cons_self _ _, hlt⟩]
        exact List.getElem?_set_eq_of_lt _ hlt
      · have hne1 : ¬(i ∈ a :: order ∧ i < acc.length) := by
          rintro ⟨hmc, hlt⟩
          rcases List.mem_cons.mp hmc with rfl | hmem2
          · exact hia ⟨rfl, hlt⟩
          · exact hmem ⟨hmem2, hlt⟩
        rw [if_neg hne1]
        by_cases hlt : i < acc.length
        · exact List.getElem?_set_ne (fun hc => hia ⟨hc.symm, hlt⟩)
        · have hge : acc.length ≤ i := Nat.le_of_not_lt hlt
          rw [List.getElem?_eq_none (by simpa [List.length_set] using hge),
            List.getElem?_eq_none hge]

theorem runForestSchedule_eq_map (forest_seed : ℕ) (options : SamplingOptions)
    (n_rows : ℕ) (fraction : ℚ) (num_trees : ℕ) (order : List ℕ)
    (h : List.Perm order (List.range num_trees)) :
    runForestSchedule forest_seed options n_rows fraction num_trees order =
      (List.range num_trees).map
        (fun i => some (treeBootstrap forest_seed options n_rows fraction i)) := by
  apply List.ext_getElem?
  intro i
  have h1 := set_foldl_getElem
    (fun k => some (treeBootstrap forest_seed options n_rows fraction k)) order
    (List.replicate num_trees none) i
  rw [List.length_replicate] at h1
  refine h1.trans ?_
  have hmem : i ∈ order ↔ i < num_trees := by
    rw [h.mem_iff, List.mem_range]
  by_cases hi : i < num_trees
  · rw [if_pos ⟨hmem.mpr hi, hi⟩, List.getElem?_map,
      List.getElem?_range hi]
    rfl
  · rw [if_neg (fun hc => hi hc.2), List.getElem?_map,
      List.getElem?_eq_none (by simpa using Nat.le_of_not_lt hi),
      List.getElem?_eq_none (by simpa using Nat.le_of_not_lt hi)]
    rfl

/-- C8: determinism of the sampling pipeline as a two-run equality.  Each
tree's sampler is constructed from the seed derived from
`(forest_seed, tree_index)` and runs the same sampler calls, and each
result lands in the slot of its tree index; therefore two runs with the
same seed and options produce identical sample vectors for any two commit
orders of the per-tree work, i.e. regardless of thread count and
scheduling. -/
theorem claim_C8_sampler_determinism (forest_seed : ℕ)
    (options : SamplingOptions) (n_rows : ℕ) (fraction : ℚ) (num_trees : ℕ)
    (order1 order2 : List ℕ) (h1 : List.Perm order1 (List.range num_trees))
    (h2 : List.Perm order2 (List.range num_trees)) :
    runForestSchedule forest_seed options n_rows fraction num_trees order1 =
      runForestSchedule forest_seed options n_rows fraction num_trees order2 := by
  rw [runForestSchedule_eq_map forest_seed options n_rows fraction num_trees order1 h1,
    runForestSchedule_eq_map forest_seed options n_rows fraction num_trees order2 h2]

/-- Witness for C8: two trees committed in the two possible orders. -/
theorem claim_C8_witness :
    List.Perm [0, 1] (List.range 2) ∧ List.Perm [1, 0] (List.range 2) ∧
    runForestSchedule 42 ⟨[], [], 1⟩ 3 (1 / 2) 2 [0, 1] =
      runForestSchedule 42 ⟨[], [], 1⟩ 3 (1 / 2) 2 [1, 0] :=
  ⟨by decide, by decide,
    claim_C8_sampler_determinism 42 ⟨[], [], 1⟩ 3 (1 / 2) 2 [0, 1] [1, 0]
      (by decide) (by decide)⟩

theorem cvAccumulate_count (pr : ℕ → ℚ) (samples_by_tree : List (List ℕ))
    (ci_group_size : ℕ) :
    (cvAccumulate pr samples_by_tree ci_group_size).1 =
      numGoodGroups samples_by_tree ci_group_size := by
  unfold cvAccumulate numGoodGroups
  generalize List.range (samples_by_tree.length / ci_group_size) = l
  suffices h : ∀ (st : ℕ × ℚ × ℚ × ℚ),
      (l.foldl (fun st group =>
        if goodGroup samples_by_tree ci_group_size group then
          let treePsi : ℕ → ℚ := fun b =>
            ((samples_by_tree.getD b []).map pr).sum /
              ((samples_by_tree.getD b []).length : ℚ)
          let psis := (List.range ci_group_size).map fun j =>
            treePsi (group * ci_group_size + j)
          let group_psi := psis.sum / (ci_group_size : ℚ)
          (st.1 + 1, st.2.1 + (psis.map fun x => x * x).sum,
            st.2.2.1 + group_psi * group_psi, st.2.2.2 + group_psi)
        else st) st).1 =
      st.1 + l.countP (goodGroup samples_by_tree ci_group_size) by
    simpa using h (0, 0, 0, 0)
  induction l with
  | nil => intro st; simp
  | cons a l ih =>
    intro st
    rw [List.foldl_cons, List.countP_cons]
    by_cases hgood : goodGroup samples_by_tree ci_group_size a
    · rw [if_pos hgood, ih]
      simp [hgood]
      omega
    · rw [if_neg hgood, ih]
      simp [hgood]

theorem compute_variance_none_iff (original_data test_data : ℕ → ℕ → ℚ)
    (outcome : ℕ → ℚ) (sampleID : ℕ) (wlist : List (ℕ × ℚ)) (V : List ℕ)
    (lambdas : List ℚ) (use_unweighted_penalty : Bool)
    (samples_by_tree : List (List ℕ)) (ci_group_size : ℕ)
    (hg : 2 ≤ ci_group_size) :
    (compute_variance original_data test_data outcome sampleID wlist V lambdas
        use_unweighted_penalty samples_by_tree ci_group_size = none ↔
      numGoodGroups samples_by_tree ci_group_size = 0) := by
  unfold compute_variance
  dsimp only
  rw [cvAccumulate_count]
  by_cases hm : numGoodGroups samples_by_tree ci_group_size = 0
  · simp [hm, qdiv0, osub, omul, odiv, bayesDebias]
  · have hmq : ((numGoodGroups samples_by_tree ci_group_size : ℕ) : ℚ) ≠ 0 := by
      exact_mod_cast hm
    have hgq : ((ci_group_size : ℕ) : ℚ) - 1 ≠ 0 := by
      have : (2 : ℚ) ≤ ((ci_group_size : ℕ) : ℚ) := by exact_mod_cast hg
      intro hc
      nlinarith
    have hmg : ((numGoodGroups samples_by_tree ci_group_size : ℕ) : ℚ) *
        ((ci_group_size : ℕ) : ℚ) ≠ 0 := by
      have hq2 : (2 : ℚ) ≤ ((ci_group_size : ℕ) : ℚ) := by exact_mod_cast hg
      have : ((ci_group_size : ℕ) : ℚ) ≠ 0 := by
        intro hc
        rw [hc] at hq2
        norm_num at hq2
      exact mul_ne_zero hmq this
    simp [hm, qdiv0, osub, omul, odiv, bayesDebias, hmq, hgq, hmg]

/-- C3 (amended): for a query evaluated with `ci_group_size ≥ 2` (the only
way `compute_variance` is invoked, spec section 4.8), the returned
variance is NaN exactly when there are zero good groups; the 0/0 divisions
by `num_good_groups` produce the NaN, and with one or more good groups
every downstream quantity, including the debiased value, is finite. -/
theorem claim_C3_variance_nan_iff (original_data test_data : ℕ → ℕ → ℚ)
    (outcome : ℕ → ℚ) (sampleID : ℕ) (wlist : List (ℕ × ℚ)) (V : List ℕ)
    (lambdas : List ℚ) (use_unweighted_penalty : Bool)
    (samples_by_tree : List (List ℕ)) (ci_group_size : ℕ)
    (hg : 2 ≤ ci_group_size) :
    (compute_variance original_data test_data outcome sampleID wlist V lambdas
        use_unweighted_penalty samples_by_tree ci_group_size = none ↔
      numGoodGroups samples_by_tree ci_group_size = 0) :=
  compute_variance_none_iff original_data test_data outcome sampleID wlist V
    lambdas use_unweighted_penalty samples_by_tree ci_group_size hg

/-- Witness for the amended C3 with one empty tree in the single group:
zero good groups, and the variance is NaN. -/
theorem claim_C3_witness :
    2 ≤ 2 ∧ numGoodGroups [[], [0]] 2 = 0 ∧
    compute_variance (fun _ _ => 0) (fun _ _ => 0) (fun _ => 0) 0 [(0, 1)] []
      [1] true [[], [0]] 2 = none :=
  ⟨le_refl 2, by decide,
    (claim_C3_variance_nan_iff (fun _ _ => 0) (fun _ _ => 0) (fun _ => 0) 0
      [(0, 1)] [] [1] true [[], [0]] 2 (le_refl 2)).mpr (by decide)⟩

/-- Counterexample to C3 as stated: a query with exactly one good group
(fewer than two), for which `compute_variance` returns a finite value,
not NaN. -/
theorem claim_C3_counterexample :
    numGoodGroups [[0], [0]] 2 = 1 ∧
    compute_variance (fun _ _ => 0) (fun _ _ => 0) (fun _ => 5) 0 [(0, 1)] []
      [1 / 10] true [[0], [0]] 2 ≠ none :=
  ⟨by decide,
    fun hc =>
      absurd ((compute_variance_none_iff (fun _ _ => 0) (fun _ _ => 0)
        (fun _ => 5) 0 [(0, 1)] [] [1 / 10] true [[0], [0]] 2 (le_refl 2)).mp hc)
        (by decide)⟩

theorem skipAdjust_nil (v : ℕ) : skipAdjust [] v = v := rfl

theorem skipAdjust_cons (s : ℕ) (rest : List ℕ) (v : ℕ) :
    skipAdjust (s :: rest) v = skipAdjust rest (if s ≤ v then v + 1 else v) := rfl

theorem skipAdjust_ge (skip : List ℕ) : ∀ v, v ≤ skipAdjust skip v := by
  induction skip with
  | nil => intro v; exact le_refl v
  | cons s rest ih =>
    intro v
    rw [skipAdjust_cons]
    have h1 : v ≤ if s ≤ v then v + 1 else v := by split <;> omega
    exact le_trans h1 (ih _)

theorem skipAdjust_le (skip : List ℕ) : ∀ v, skipAdjust skip v ≤ v + skip.length := by
  induction skip with
  | nil => intro v; simp [skipAdjust_nil]
  | cons s rest ih =>
    intro v
    rw [skipAdjust_cons]
    have h1 := ih (if s ≤ v then v + 1 else v)
    have h2 : (if s ≤ v then v + 1 else v) ≤ v + 1 := by split <;> omega
    simp only [List.length_cons]
    omega

theorem skipAdjust_of_gt (skip : List ℕ) :
    ∀ v, (∀ x ∈ skip, v < x) → skipAdjust skip v = v := by
  induction skip with
  | nil => intro v _; rfl
  | cons s rest ih =>
    intro v hall
    rw [skipAdjust_cons, if_neg (by have := hall s (List.mem_cons_self _ _); omega)]
    exact ih v fun x hx => hall x (List.mem_cons_of_mem _ hx)

theorem skipAdjust_not_mem (skip : List ℕ) (hsorted : List.Sorted (· < ·) skip) :
    ∀ v, skipAdjust skip v ∉ skip := by
  induction skip with
  | nil => intro v; simp
  | cons s rest ih =>
    intro v
    obtain ⟨hs, hrest⟩ := List.sorted_cons.mp hsorted
    rw [skipAdjust_cons, List.mem_cons]
    by_cases hsv : s ≤ v
    · rw [if_pos hsv]
      rintro (heq | hm)
      · have := skipAdjust_ge rest (v + 1)
        omega
      · exact ih hrest (v + 1) hm
    · rw [if_neg hsv]
      have hval : skipAdjust rest v = v :=
        skipAdjust_of_gt rest v fun x hx => lt_trans (by omega) (hs x hx)
      rw [hval]
      rintro (heq | hm)
      · omega
      · have := hs _ hm
        omega

theorem skipAdjust_lt_of_lt (skip : List ℕ) :
    ∀ a b, a < b → skipAdjust skip a < skipAdjust skip b := by
  induction skip with
  | nil => intro a b h; simpa [skipAdjust_nil] using h
  | cons s rest ih =>
    intro a b h
    rw [skipAdjust_cons, skipAdjust_cons]
    apply ih
    split <;> split <;> omega

theorem uniformRealDraw_nonneg (r : ℕ) : 0 ≤ uniformRealDraw r := by
  unfold uniformRealDraw
  positivity

theorem uniformRealDraw_lt_one (r : ℕ) : uniformRealDraw r < 1 := by
  unfold uniformRealDraw
  rw [div_lt_one (by norm_num)]
  exact_mod_cast Nat.mod_lt r (by norm_num)

theorem draw_simple_go_sound (σ : ℕ → ℕ) (mx : ℕ) (skip : List ℕ)
    (num_samples : ℕ) (hsorted : List.Sorted (· < ·) skip)
    (hn : num_samples ≤ mx - skip.length) :
    ∀ (fuel t : ℕ) (result r : List ℕ), result.Nodup →
      (∀ x ∈ result, x < mx ∧ x ∉ skip) → result.length ≤ num_samples →
      draw_simple_go σ mx skip num_samples fuel t result = some r →
      r.length = num_samples ∧ r.Nodup ∧ ∀ x ∈ r, x < mx ∧ x ∉ skip := by
  intro fuel
  induction fuel with
  | zero =>
    intro t result r hnd hprop _ hsome
    simp only [draw_simple_go] at hsome
    by_cases hfull : result.length = num_samples
    · rw [if_pos hfull] at hsome
      obtain rfl := Option.some_injective _ hsome
      exact ⟨hfull, hnd, hprop⟩
    · rw [if_neg hfull] at hsome
      cases hsome
  | succ fuel ih =>
    intro t result r hnd hprop hlen hsome
    simp only [draw_simple_go] at hsome
    by_cases hfull : result.length = num_samples
    · rw [if_pos hfull] at hsome
      obtain rfl := Option.some_injective _ hsome
      exact ⟨hfull, hnd, hprop⟩
    · rw [if_neg hfull] at hsome
      have hlen2 : result.length < num_samples := lt_of_le_of_ne hlen hfull
      have hpos : 0 < mx - skip.length := by omega
      have hraw : σ t % (mx - skip.length) < mx - skip.length := Nat.mod_lt _ hpos
      have hdmax : skipAdjust skip (σ t % (mx - skip.length)) < mx := by
        have := skipAdjust_le skip (σ t % (mx - skip.length))
        omega
      have hdskip : skipAdjust skip (σ t % (mx - skip.length)) ∉ skip :=
        skipAdjust_not_mem skip hsorted _
      by_cases hmem : skipAdjust skip (σ t % (mx - skip.length)) ∈ result
      · rw [if_pos hmem] at hsome
        exact ih (t + 1) result r hnd hprop hlen hsome
      · rw [if_neg hmem] at hsome
        refine ih (t + 1) (result ++ [skipAdjust skip (σ t % (mx - skip.length))]) r
          ?_ ?_ ?_ hsome
        · exact List.Nodup.append hnd (List.nodup_singleton _)
            (fun a ha hb => hmem ((List.mem_singleton.mp hb) ▸ ha))
        · intro x hx
          rcases List.mem_append.mp hx with h | h
          · exact hprop x h
          · rw [List.mem_singleton.mp h]
            exact ⟨hdmax, hdskip⟩
        · simp only [List.length_append, List.length_singleton]
          omega

theorem draw_knuth_go_sound (σ : ℕ → ℕ) (sns : ℕ) (skip : List ℕ) (n : ℕ) :
    ∀ (fuel t i j : ℕ) (result r : List ℕ),
      i = result.length → i ≤ n → n - i ≤ sns - j →
      (∀ x ∈ result, ∃ jx, jx < j ∧ jx < sns ∧ x = skipAdjust skip jx) →
      result.Nodup →
      draw_knuth_go σ sns skip n fuel t i j result = some r →
      r.length = n ∧ r.Nodup ∧
        ∀ x ∈ r, ∃ jx, jx < sns ∧ x = skipAdjust skip jx := by
  intro fuel
  induction fuel with
  | zero =>
    intro t i j result r hi hin hinv hmem hnd hsome
    simp only [draw_knuth_go] at hsome
    by_cases hlt : i < n
    · rw [if_pos hlt] at hsome
      cases hsome
    · rw [if_neg hlt] at hsome
      obtain rfl := Option.some_injective _ hsome
      exact ⟨by omega, hnd, fun x hx =>
        (hmem x hx).elim fun jx h => ⟨jx, h.2.1, h.2.2⟩⟩
  | succ fuel ih =>
    intro t i j result r hi hin hinv hmem hnd hsome
    simp only [draw_knuth_go] at hsome
    by_cases hlt : i < n
    · rw [if_pos hlt] at hsome
      have hj : j < sns := by omega
      by_cases hcond : ((n - i : ℕ) : ℚ) ≤ ((sns - j : ℕ) : ℚ) * uniformRealDraw (σ t)
      · rw [if_pos hcond] at hsome
        refine ih (t + 1) i (j + 1) result r hi hin ?_ ?_ hnd hsome
        · have hpos : (0 : ℚ) < ((sns - j : ℕ) : ℚ) := by
            exact_mod_cast Nat.sub_pos_of_lt hj
          have hlt2 : ((n - i : ℕ) : ℚ) < ((sns - j : ℕ) : ℚ) :=
            lt_of_le_of_lt hcond (by
              calc ((sns - j : ℕ) : ℚ) * uniformRealDraw (σ t)
                  < ((sns - j : ℕ) : ℚ) * 1 :=
                    mul_lt_mul_of_pos_left (uniformRealDraw_lt_one (σ t)) hpos
                _ = ((sns - j : ℕ) : ℚ) := mul_one _)
          have : n - i < sns - j := by exact_mod_cast hlt2
          omega
        · intro x hx
          obtain ⟨jx, h1, h2, h3⟩ := hmem x hx
          exact ⟨jx, by omega, h2, h3⟩
      · rw [if_neg hcond] at hsome
        refine ih (t + 1) (i + 1) (j + 1) (result ++ [skipAdjust skip j]) r
          ?_ (by omega) (by omega) ?_ ?_ hsome
        · simp [hi]
        · intro x hx
          rcases List.mem_append.mp hx with h | h
          · obtain ⟨jx, h1, h2, h3⟩ := hmem x h
            exact ⟨jx, by omega, h2, h3⟩
          · exact ⟨j, by omega, hj, List.mem_singleton.mp h⟩
        · refine List.Nodup.append hnd (List.nodup_singleton _) ?_
          intro x hx hb
          obtain ⟨jx, h1, -, h3⟩ := hmem x hx
          rw [List.mem_singleton.mp hb] at h3
          exact absurd h3.symm (ne_of_lt (skipAdjust_lt_of_lt skip jx j h1))
    · rw [if_neg hlt] at hsome
      obtain rfl := Option.some_injective _ hsome
      exact ⟨by omega, hnd, fun x hx =>
        (hmem x hx).elim fun jx h => ⟨jx, h.2.1, h.2.2⟩⟩

theorem draw_knuth_go_complete (σ : ℕ → ℕ) (sns : ℕ) (skip : List ℕ) (n : ℕ) :
    ∀ (fuel t i j : ℕ) (result : List ℕ),
      i ≤ n → n - i ≤ sns - j → sns - j ≤ fuel →
      ∃ r, draw_knuth_go σ sns skip n fuel t i j result = some r := by
  intro fuel
  induction fuel with
  | zero =>
    intro t i j result hin hinv hfuel
    by_cases hlt : i < n
    · omega
    · exact ⟨result, by simp only [draw_knuth_go]; rw [if_neg hlt]⟩
  | succ fuel ih =>
    intro t i j result hin hinv hfuel
    by_cases hlt : i < n
    · have hj : j < sns := by omega
      by_cases hcond : ((n - i : ℕ) : ℚ) ≤ ((sns - j : ℕ) : ℚ) * uniformRealDraw (σ t)
      · have hpos : (0 : ℚ) < ((sns - j : ℕ) : ℚ) := by
          exact_mod_cast Nat.sub_pos_of_lt hj
        have hlt2 : ((n - i : ℕ) : ℚ) < ((sns - j : ℕ) : ℚ) :=
          lt_of_le_of_lt hcond (by
            calc ((sns - j : ℕ) : ℚ) * uniformRealDraw (σ t)
                < ((sns - j : ℕ) : ℚ) * 1 :=
                  mul_lt_mul_of_pos_left (uniformRealDraw_lt_one (σ t)) hpos
              _ = ((sns - j : ℕ) : ℚ) := mul_one _)
        have hnat : n - i < sns - j := by exact_mod_cast hlt2
        obtain ⟨r, hr⟩ := ih (t + 1) i (j + 1) result hin (by omega) (by omega)
        exact ⟨r, by simp only [draw_knuth_go]; rw [if_pos hlt, if_pos hcond]; exact hr⟩
      · obtain ⟨r, hr⟩ := ih (t + 1) (i + 1) (j + 1)
          (result ++ [skipAdjust skip j]) (by omega) (by omega) (by omega)
        exact ⟨r, by simp only [draw_knuth_go]; rw [if_pos hlt, if_neg hcond]; exact hr⟩
    · exact ⟨result, by simp only [draw_knuth_go]; rw [if_neg hlt]⟩

/-- C6: `draw` dispatches to the rejection sampler exactly when
`num_samples < max / 2` (integer division) and to the selection sampler
otherwise; under `num_samples ≤ max - |skip|` (with the skip set iterated
in its ascending `std::set` order) every completed draw is a list of
exactly `num_samples` pairwise distinct integers, each below `max` and
outside the skip set, and the selection branch provably completes given
fuel for its at most `max - |skip|` engine draws.  (The rejection loop
terminates only with probability 1, so its result is quantified over
completed runs.) -/
theorem claim_C6_draw_spec (σ : ℕ → ℕ) (mx : ℕ) (skip : List ℕ)
    (num_samples fuel : ℕ) (hsorted : List.Sorted (· < ·) skip)
    (hn : num_samples ≤ mx - skip.length) :
    (draw σ mx skip num_samples fuel =
      if num_samples < mx / 2 then draw_simple σ mx skip num_samples fuel
      else draw_knuth σ mx skip num_samples fuel) ∧
    (∀ r, draw σ mx skip num_samples fuel = some r →
      r.length = num_samples ∧ r.Nodup ∧ ∀ x ∈ r, x < mx ∧ x ∉ skip) ∧
    (mx / 2 ≤ num_samples → mx - skip.length ≤ fuel →
      ∃ r, draw σ mx skip num_samples fuel = some r) := by
  refine ⟨rfl, ?_, ?_⟩
  · intro r hr
    unfold draw at hr
    by_cases hdisp : num_samples < mx / 2
    · rw [if_pos hdisp] at hr
      exact draw_simple_go_sound σ mx skip num_samples hsorted hn fuel 0 [] r
        List.nodup_nil (by simp) (by simp) hr
    · rw [if_neg hdisp] at hr
      obtain ⟨hlen, hnd, hmem⟩ := draw_knuth_go_sound σ (mx - skip.length) skip
        num_samples fuel 0 0 0 [] r rfl (by omega) (by omega) (by simp)
        List.nodup_nil hr
      refine ⟨hlen, hnd, fun x hx => ?_⟩
      obtain ⟨jx, hjx, hx2⟩ := hmem x hx
      have hn1 : 1 ≤ num_samples := by
        rcases Nat.eq_zero_or_pos num_samples with h0 | h1
        · rw [h0] at hlen
          rw [List.length_eq_zero.mp hlen] at hx
          cases hx
        · exact h1
      have hLmx : skip.length < mx := by omega
      have hle := skipAdjust_le skip jx
      refine ⟨by omega, ?_⟩
      rw [hx2]
      exact skipAdjust_not_mem skip hsorted jx
  · intro hdisp hfuel
    unfold draw
    rw [if_neg (by omega)]
    unfold draw_knuth
    exact draw_knuth_go_complete σ (mx - skip.length) skip num_samples fuel 0 0 0 []
      (by omega) (by omega) hfuel

/-- Witness for C6 on `max = 4`, `skip = {1}`, `n = 2` (the selection
branch, since `2 ≥ 4 / 2`), with the constant-zero engine. -/
theorem claim_C6_witness :
    List.Sorted (· < ·) [1] ∧ 2 ≤ 4 - [1].length ∧
    (∃ r, draw (fun _ => 0) 4 [1] 2 10 = some r) ∧
    (∀ r, draw (fun _ => 0) 4 [1] 2 10 = some r →
      r.length = 2 ∧ r.Nodup ∧ ∀ x ∈ r, x < 4 ∧ x ∉ [1]) :=
  ⟨by simp, by norm_num,
    (claim_C6_draw_spec (fun _ => 0) 4 [1] 2 10 (by simp) (by norm_num)).2.2
      (by norm_num) (by norm_num),
    (claim_C6_draw_spec (fun _ => 0) 4 [1] 2 10 (by simp) (by norm_num)).2.1⟩

end GradientForest
